import Mathlib

/-!
Verification of the TTL/LRU in-memory cache of the weather-app example
(`infrastructure/cache.ts`).  The cache keeps a JavaScript
`Map<string, CacheEntry<unknown>>` behind an effect-runtime reference cell and
exposes four operations: `get`, `set`, `clear`, `size`.  Here the map is
embedded as an association list kept in insertion order (a JS `Map` iterates
its entries in insertion order, and `Map.prototype.set` on an existing key
keeps the key's original position), wall-clock instants are naturals counting
milliseconds (`Date.getTime()`), and every operation is a pure function from
the pre-state to a result together with the post-state.
-/

set_option autoImplicit false

namespace WeatherCache

/-- Cache configuration (`CacheConfigType` from `domain/config.ts`):
`enabled` feature flag, `ttlSeconds` time-to-live, `maxSize` capacity bound. -/
structure CacheConfigType where
  enabled : Bool
  ttlSeconds : Nat
  maxSize : Nat
  deriving Repr, DecidableEq

/-- One cache entry (`CacheEntry<T>` in `cache.ts`), timestamps in
milliseconds. -/
structure CacheEntry (V : Type) where
  value : V
  cachedAt : Nat
  expiresAt : Nat
  accessCount : Nat
  deriving Repr, DecidableEq

/-- The cache state: `Map<string, CacheEntry<unknown>>`, embedded as an
association list in iteration (= insertion) order. -/
abbrev CacheState (V : Type) := List (String × CacheEntry V)

/-- `state.get(key)` on the JS map: the entry stored under `key`, if any. -/
def mapLookup {V : Type} (key : String) : CacheState V → Option (CacheEntry V)
  | [] => none
  | (k, e) :: rest => if k = key then some e else mapLookup key rest

/-- `state.has(key)`. -/
def mapHas {V : Type} (key : String) (st : CacheState V) : Bool :=
  (mapLookup key st).isSome

/-- `state.set(key, entry)` on the JS map: overwrite in place when the key is
present (keeping its iteration position), otherwise append at the end. -/
def mapSet {V : Type} (key : String) (entry : CacheEntry V) :
    CacheState V → CacheState V
  | [] => [(key, entry)]
  | (k, e) :: rest =>
      if k = key then (key, entry) :: rest else (k, e) :: mapSet key entry rest

/-- `state.delete(key)`: remove the entry stored under `key`, if any. -/
def mapDelete {V : Type} (key : String) : CacheState V → CacheState V
  | [] => []
  | (k, e) :: rest => if k = key then rest else (k, e) :: mapDelete key rest

/-- The second `Ref.update` inside `get` (`cache.ts` lines 178-184): look the
key up again and, when present, increment its `accessCount` in place. -/
def bumpAccess {V : Type} (key : String) : CacheState V → CacheState V
  | [] => []
  | (k, e) :: rest =>
      if k = key then (k, { e with accessCount := e.accessCount + 1 }) :: rest
      else (k, e) :: bumpAccess key rest

/-- The error channel of `get` (`CacheMissError | CacheExpiredError` from
`errors.ts`), with exactly the fields the cache passes to `.make` at its two
call sites. -/
inductive GetError where
  | cacheMiss (key : String)
  | cacheExpired (key : String) (cachedAt : Nat) (expiresAt : Nat)
  deriving Repr, DecidableEq

/-- `CacheFullError{maxSize, currentSize}`, the error channel of `set`. -/
structure CacheFullError where
  maxSize : Nat
  currentSize : Nat
  deriving Repr, DecidableEq

instance {ε α : Type} [DecidableEq ε] [DecidableEq α] :
    DecidableEq (Except ε α) := fun x y =>
  match x, y with
  | Except.ok a, Except.ok b =>
      if h : a = b then Decidable.isTrue (h ▸ rfl)
      else Decidable.isFalse fun he => h (Except.ok.inj he)
  | Except.error a, Except.error b =>
      if h : a = b then Decidable.isTrue (h ▸ rfl)
      else Decidable.isFalse fun he => h (Except.error.inj he)
  | Except.ok _, Except.error _ => Decidable.isFalse fun he => Except.noConfusion he
  | Except.error _, Except.ok _ => Decidable.isFalse fun he => Except.noConfusion he

/-- `get(key)` at wall-clock time `now`, returning the result together with the
post-state.  Mirrors `cache.ts` lines 154-187: fail `CacheMissError` on an
absent key; when `now > expiresAt`, delete the entry and fail
`CacheExpiredError` carrying the entry's `cachedAt`/`expiresAt`; otherwise bump
the entry's `accessCount` and return the value captured before the bump. -/
def get {V : Type} (key : String) (now : Nat) (st : CacheState V) :
    Except GetError V × CacheState V :=
  match mapLookup key st with
  | none => (Except.error (GetError.cacheMiss key), st)
  | some entry =>
      if entry.expiresAt < now then
        (Except.error (GetError.cacheExpired key entry.cachedAt entry.expiresAt),
          mapDelete key st)
      else
        (Except.ok entry.value, bumpAccess key st)

/-- The eviction-scan loop of `set` (`cache.ts` lines 217-225): fold over the
entries in iteration order carrying `(lruKey, minAccessCount)`; `none` stands
for the initial `lruKey = null` with `minAccessCount = Infinity` (every
`accessCount` is below `Infinity`, so the first entry always replaces it).
The comparison is strict, so ties keep the earlier entry. -/
def lruLoop {V : Type} (acc : Option (String × Nat)) :
    CacheState V → Option (String × Nat)
  | [] => acc
  | (k, e) :: rest =>
      match acc with
      | none => lruLoop (some (k, e.accessCount)) rest
      | some (k0, m) =>
          if e.accessCount < m then lruLoop (some (k, e.accessCount)) rest
          else lruLoop (some (k0, m)) rest

/-- The victim key selected by the eviction scan (`lruKey` after the loop). -/
def lruScan {V : Type} (st : CacheState V) : Option String :=
  (lruLoop none st).map Prod.fst

/-- The entry built by `set` (`cache.ts` lines 242-250):
`expiresAt = now + ttlSeconds * 1000` milliseconds, `accessCount = 0`. -/
def freshEntry {V : Type} (now ttlSeconds : Nat) (value : V) : CacheEntry V :=
  { value := value, cachedAt := now, expiresAt := now + ttlSeconds * 1000,
    accessCount := 0 }

/-- `set(key, value)` at time `now`.  Mirrors `cache.ts` lines 208-256: no-op
when disabled; when at capacity with a new distinct key, run the eviction scan
and delete the victim, else fail `CacheFullError`; finally insert a fresh
entry.  Note line 227: the victim test is the JavaScript truthiness check
`if (lruKey)`, which is false both for `null` and for the empty string, so an
empty-string victim key falls into the `CacheFullError` branch. -/
def set {V : Type} (config : CacheConfigType) (now : Nat) (key : String)
    (value : V) (st : CacheState V) : Except CacheFullError Unit × CacheState V :=
  if config.enabled = false then (Except.ok (), st)
  else if config.maxSize ≤ st.length ∧ mapHas key st = false then
    match lruScan st with
    | some lruKey =>
        if lruKey ≠ "" then
          (Except.ok (),
            mapSet key (freshEntry now config.ttlSeconds value)
              (mapDelete lruKey st))
        else (Except.error ⟨config.maxSize, st.length⟩, st)
    | none => (Except.error ⟨config.maxSize, st.length⟩, st)
  else (Except.ok (), mapSet key (freshEntry now config.ttlSeconds value) st)

/-- `clear()`: replace the state with an empty map (`cache.ts` lines 270-271). -/
def clear {V : Type} (_st : CacheState V) : CacheState V := []

/-- `size()`: current entry count (`cache.ts` lines 285-286). -/
def size {V : Type} (st : CacheState V) : Nat := st.length

/-- Whether an `Except` result is a success. -/
def isOk {ε α : Type} : Except ε α → Bool
  | Except.ok _ => true
  | Except.error _ => false

/-- Run a sequence of `set` calls at one time instant, reporting whether every
call succeeded, together with the final state. -/
def setMany {V : Type} (config : CacheConfigType) (now : Nat) :
    List (String × V) → CacheState V → Bool × CacheState V
  | [], st => (true, st)
  | (k, v) :: rest, st =>
      let r := set config now k v st
      let r2 := setMany config now rest r.2
      (isOk r.1 && r2.1, r2.2)

/-! ### Concrete fixtures used by the claim theorems -/

/-- An enabled configuration with `ttlSeconds = 100`, `maxSize = 1`. -/
def cfgM1 : CacheConfigType := ⟨true, 100, 1⟩

/-- An enabled configuration with `ttlSeconds = 100`, `maxSize = 2`
(the spec's concrete eviction scenario). -/
def cfgM2 : CacheConfigType := ⟨true, 100, 2⟩

/-- A full one-entry state whose only key is the empty string, built by `set`. -/
def stEmptyKey : CacheState Nat := (set cfgM1 0 "" 7 []).2

/-- A full one-entry state with key `"a"`. -/
def stA : CacheState Nat := [("a", ⟨7, 0, 100000, 0⟩)]

/-- A full two-entry state whose first entry has the empty-string key and the
minimal `accessCount`. -/
def stEmptyFirst : CacheState Nat :=
  [("", ⟨7, 0, 100000, 0⟩), ("y", ⟨8, 0, 100000, 5⟩)]

/-- A full two-entry state where `"b"` has the minimal `accessCount`. -/
def stTwoCounts : CacheState Nat :=
  [("a", ⟨1, 0, 100000, 2⟩), ("b", ⟨2, 0, 100000, 0⟩)]

/-- A one-entry state whose entry has been read three times. -/
def stB : CacheState Nat := [("a", ⟨7, 0, 100000, 3⟩)]

/-- The spec's concrete eviction scenario, step by step:
state after `set("a", 1)`. -/
def scnA : CacheState Nat := (set cfgM2 0 "a" 1 []).2

/-- State after the further `set("b", 2)`. -/
def scnB : CacheState Nat := (set cfgM2 0 "b" 2 scnA).2

/-- State after the further `get("a")` (bumping the count of `"a"`). -/
def scnAfterGet : CacheState Nat := (get "a" 0 scnB).2

/-- Result of the final `set("c", 3)`, which must evict. -/
def scnFinal : Except CacheFullError Unit × CacheState Nat :=
  set cfgM2 0 "c" 3 scnAfterGet

/-! ### Association-list lemmas -/

theorem mapLookup_mapSet_self {V : Type} (key : String) (e : CacheEntry V)
    (st : CacheState V) : mapLookup key (mapSet key e st) = some e := by
  induction st with
  | nil => simp [mapSet, mapLookup]
  | cons p rest ih =>
      obtain ⟨k, e'⟩ := p
      by_cases h : k = key
      · simp [mapSet, mapLookup, h]
      · simp [mapSet, mapLookup, h, ih]

theorem mapSet_of_not_has {V : Type} {key : String} {st : CacheState V}
    (e : CacheEntry V) (h : mapHas key st = false) :
    mapSet key e st = st ++ [(key, e)] := by
  induction st with
  | nil => simp [mapSet]
  | cons p rest ih =>
      obtain ⟨k, e'⟩ := p
      by_cases hk : k = key
      · simp [mapHas, mapLookup, hk] at h
      · simp [mapHas, mapLookup, hk] at h
        simp [mapSet, hk, ih (by simp [mapHas, h])]

theorem length_mapSet_of_has {V : Type} {key : String} {st : CacheState V}
    (e : CacheEntry V) (h : mapHas key st = true) :
    (mapSet key e st).length = st.length := by
  induction st with
  | nil => simp [mapHas, mapLookup] at h
  | cons p rest ih =>
      obtain ⟨k, e'⟩ := p
      by_cases hk : k = key
      · simp [mapSet, hk]
      · simp [mapHas, mapLookup, hk] at h
        simp [mapSet, hk, ih h]

theorem length_mapDelete_of_has {V : Type} {key : String} {st : CacheState V}
    (h : mapHas key st = true) :
    (mapDelete key st).length + 1 = st.length := by
  induction st with
  | nil => simp [mapHas, mapLookup] at h
  | cons p rest ih =>
      obtain ⟨k, e'⟩ := p
      by_cases hk : k = key
      · simp [mapDelete, hk]
      · simp [mapHas, mapLookup, hk] at h
        simp [mapDelete, hk, ih h]

theorem mapLookup_mapDelete_of_none {V : Type} {key key' : String}
    {st : CacheState V} (h : mapLookup key st = none) :
    mapLookup key (mapDelete key' st) = none := by
  induction st with
  | nil => simp [mapDelete, mapLookup]
  | cons p rest ih =>
      obtain ⟨k, e'⟩ := p
      by_cases hk : k = key
      · simp [mapLookup, hk] at h
      · simp [mapLookup, hk] at h
        by_cases hk' : k = key'
        · simpa [mapDelete, hk'] using h
        · simp [mapDelete, mapLookup, hk, hk', ih h]

theorem mapLookup_bumpAccess_self {V : Type} {key : String} {st : CacheState V}
    {e : CacheEntry V} (h : mapLookup key st = some e) :
    mapLookup key (bumpAccess key st) =
      some { e with accessCount := e.accessCount + 1 } := by
  induction st with
  | nil => simp [mapLookup] at h
  | cons p rest ih =>
      obtain ⟨k, e'⟩ := p
      by_cases hk : k = key
      · simp [mapLookup, hk] at h
        simp [bumpAccess, mapLookup, hk, h]
      · simp [mapLookup, hk] at h
        simp [bumpAccess, mapLookup, hk, ih h]

theorem mapLookup_eq_none_of_not_mem {V : Type} {key : String}
    {st : CacheState V} (h : key ∉ st.map Prod.fst) : mapLookup key st = none := by
  induction st with
  | nil => simp [mapLookup]
  | cons p rest ih =>
      obtain ⟨k, e'⟩ := p
      simp only [List.map_cons, List.mem_cons, not_or] at h
      have hk : k ≠ key := fun hk => h.1 hk.symm
      simp [mapLookup, hk, ih h.2]

theorem mem_of_mapHas {V : Type} {key : String} {st : CacheState V}
    (h : mapHas key st = true) : key ∈ st.map Prod.fst := by
  induction st with
  | nil => simp [mapHas, mapLookup] at h
  | cons p rest ih =>
      obtain ⟨k, e'⟩ := p
      by_cases hk : k = key
      · simp [hk]
      · simp [mapHas, mapLookup, hk] at h
        simp [ih h]

theorem mapHas_of_mem {V : Type} {key : String} {st : CacheState V}
    (h : key ∈ st.map Prod.fst) : mapHas key st = true := by
  induction st with
  | nil => simp at h
  | cons p rest ih =>
      obtain ⟨k, e'⟩ := p
      by_cases hk : k = key
      · simp [mapHas, mapLookup, hk]
      · simp only [List.map_cons, List.mem_cons] at h
        rcases h with h | h
        · exact absurd h.symm hk
        · simpa [mapHas, mapLookup, hk] using ih h

theorem mapDelete_sublist {V : Type} (key : String) (st : CacheState V) :
    (mapDelete key st).Sublist st := by
  induction st with
  | nil => simp [mapDelete]
  | cons p rest ih =>
      obtain ⟨k, e'⟩ := p
      by_cases hk : k = key
      · simp [mapDelete, hk]
      · simpa [mapDelete, hk] using ih.cons₂ (k, e')

theorem nodup_keys_mapDelete {V : Type} {key : String} {st : CacheState V}
    (h : (st.map Prod.fst).Nodup) : ((mapDelete key st).map Prod.fst).Nodup :=
  ((mapDelete_sublist key st).map Prod.fst).nodup h

theorem nodup_keys_mapSet {V : Type} {key : String} (e : CacheEntry V)
    {st : CacheState V} (h : (st.map Prod.fst).Nodup) :
    ((mapSet key e st).map Prod.fst).Nodup := by
  by_cases hhas : mapHas key st = true
  · have : (mapSet key e st).map Prod.fst = st.map Prod.fst := by
      clear h
      induction st with
      | nil => simp [mapHas, mapLookup] at hhas
      | cons p rest ih =>
          obtain ⟨k, e'⟩ := p
          by_cases hk : k = key
          · simp [mapSet, hk]
          · simp [mapHas, mapLookup, hk] at hhas
            simp [mapSet, hk, ih hhas]
    rw [this]; exact h
  · rw [mapSet_of_not_has e (by simpa using hhas)]
    simp only [List.map_append, List.map_cons, List.map_nil]
    rw [List.nodup_append]
    refine ⟨h, List.nodup_singleton key, ?_⟩
    intro a ha hb
    simp at hb
    subst hb
    exact hhas (mapHas_of_mem ha)

theorem mapLookup_mapDelete_self {V : Type} {key : String} {st : CacheState V}
    (h : (st.map Prod.fst).Nodup) : mapLookup key (mapDelete key st) = none := by
  induction st with
  | nil => simp [mapDelete, mapLookup]
  | cons p rest ih =>
      obtain ⟨k, e'⟩ := p
      simp only [List.map_cons, List.nodup_cons] at h
      by_cases hk : k = key
      · subst hk
        simp only [mapDelete, if_pos rfl]
        exact mapLookup_eq_none_of_not_mem h.1
      · simp [mapDelete, mapLookup, hk, ih h.2]

theorem mapLookup_append {V : Type} (key : String) (st1 st2 : CacheState V) :
    mapLookup key (st1 ++ st2) =
      match mapLookup key st1 with
      | some e => some e
      | none => mapLookup key st2 := by
  induction st1 with
  | nil => simp [mapLookup]
  | cons p rest ih =>
      obtain ⟨k, e'⟩ := p
      by_cases hk : k = key
      · simp [mapLookup, hk]
      · simp [mapLookup, hk, ih]

/-! ### Eviction-scan lemmas -/

theorem lruLoop_isSome {V : Type} :
    ∀ (st : CacheState V) (a : String × Nat), ∃ b, lruLoop (some a) st = some b := by
  intro st
  induction st with
  | nil => exact fun a => ⟨a, rfl⟩
  | cons p rest ih =>
      intro a
      obtain ⟨k, e⟩ := p
      obtain ⟨k0, m0⟩ := a
      by_cases h : e.accessCount < m0
      · simpa [lruLoop, h] using ih (k, e.accessCount)
      · simpa [lruLoop, h] using ih (k0, m0)

theorem lruScan_isSome {V : Type} {st : CacheState V} (h : st ≠ []) :
    ∃ lk, lruScan st = some lk := by
  cases st with
  | nil => exact absurd rfl h
  | cons p rest =>
      obtain ⟨k, e⟩ := p
      obtain ⟨⟨k1, m1⟩, hb⟩ := lruLoop_isSome rest (k, e.accessCount)
      exact ⟨k1, by simp [lruScan, lruLoop, hb]⟩

/-- Full characterization of the scan loop run from a non-null accumulator:
either the accumulator survives (every scanned entry has `accessCount` at least
the accumulated minimum), or the result is the first scanned entry attaining a
strictly smaller minimum: every entry before it is strictly larger, every entry
after it is at least as large. -/
theorem lruLoop_spec {V : Type} :
    ∀ (st : CacheState V) (k0 : String) (m0 : Nat) (k : String) (m : Nat),
      lruLoop (some (k0, m0)) st = some (k, m) →
      (k = k0 ∧ m = m0 ∧ ∀ p ∈ st, m0 ≤ p.2.accessCount) ∨
      (∃ pre e suf, st = pre ++ (k, e) :: suf ∧ e.accessCount = m ∧ m < m0 ∧
        (∀ p ∈ pre, m < p.2.accessCount) ∧ (∀ p ∈ suf, m ≤ p.2.accessCount)) := by
  intro st
  induction st with
  | nil =>
      intro k0 m0 k m h
      simp [lruLoop] at h
      exact Or.inl ⟨h.1.symm, h.2.symm, by simp⟩
  | cons p rest ih =>
      intro k0 m0 k m h
      obtain ⟨k1, e1⟩ := p
      by_cases hc : e1.accessCount < m0
      · simp only [lruLoop, if_pos hc] at h
        rcases ih k1 e1.accessCount k m h with ⟨hk, hm, hall⟩ | ⟨pre, e, suf, hst, hcnt, hlt, hpre, hsuf⟩
        · subst hk; subst hm
          refine Or.inr ⟨[], e1, rest, by simp, rfl, hc, by simp, hall⟩
        · refine Or.inr ⟨(k1, e1) :: pre, e, suf, by simp [hst], hcnt, lt_trans hlt hc, ?_, hsuf⟩
          intro q hq
          rcases List.mem_cons.mp hq with hq | hq
          · subst hq; exact hlt
          · exact hpre q hq
      · simp only [lruLoop, if_neg hc] at h
        rcases ih k0 m0 k m h with ⟨hk, hm, hall⟩ | ⟨pre, e, suf, hst, hcnt, hlt, hpre, hsuf⟩
        · refine Or.inl ⟨hk, hm, ?_⟩
          intro q hq
          rcases List.mem_cons.mp hq with hq | hq
          · subst hq; exact le_of_not_lt hc
          · exact hall q hq
        · refine Or.inr ⟨(k1, e1) :: pre, e, suf, by simp [hst], hcnt, hlt, ?_, hsuf⟩
          intro q hq
          rcases List.mem_cons.mp hq with hq | hq
          · subst hq; exact lt_of_lt_of_le hlt (le_of_not_lt hc)
          · exact hpre q hq

/-- The eviction scan picks the first entry in iteration order whose
`accessCount` is minimal: strictly smaller than every entry before it, and no
larger than any entry after it. -/
theorem lruScan_spec {V : Type} {st : CacheState V} {lk : String}
    (h : lruScan st = some lk) :
    ∃ pre e suf, st = pre ++ (lk, e) :: suf ∧
      (∀ p ∈ pre, e.accessCount < p.2.accessCount) ∧
      (∀ p ∈ suf, e.accessCount ≤ p.2.accessCount) := by
  cases st with
  | nil => simp [lruScan, lruLoop] at h
  | cons p rest =>
      obtain ⟨k1, e1⟩ := p
      obtain ⟨⟨k , m⟩, hb⟩ := lruLoop_isSome rest (k1, e1.accessCount)
      have hk : k = lk := by simpa [lruScan, lruLoop, hb] using h
      subst hk
      rcases lruLoop_spec rest k1 e1.accessCount k m hb with ⟨hk, hm, hall⟩ | ⟨pre, e, suf, hst, hcnt, hlt, hpre, hsuf⟩
      · subst hk
        exact ⟨[], e1, rest, by simp, by simp, by simpa [hm] using hall⟩
      · refine ⟨(k1, e1) :: pre, e, suf, by simp [hst], ?_, by simpa [hcnt] using hsuf⟩
        intro q hq
        rcases List.mem_cons.mp hq with hq | hq
        · subst hq; simpa [hcnt] using hlt
        · simpa [hcnt] using hpre q hq

/-- The scan's victim has the minimal `accessCount` of the whole map. -/
theorem lruScan_min {V : Type} {st : CacheState V} {lk : String}
    (h : lruScan st = some lk) :
    ∃ pre e suf, st = pre ++ (lk, e) :: suf ∧
      ∀ p ∈ st, e.accessCount ≤ p.2.accessCount := by
  obtain ⟨pre, e, suf, hst, hpre, hsuf⟩ := lruScan_spec h
  refine ⟨pre, e, suf, hst, ?_⟩
  intro q hq
  rw [hst] at hq
  rcases List.mem_append.mp hq with hq | hq
  · exact le_of_lt (hpre q hq)
  · rcases List.mem_cons.mp hq with hq | hq
    · subst hq; exact le_refl _
    · exact hsuf q hq

theorem mapHas_of_lruScan {V : Type} {st : CacheState V} {lk : String}
    (h : lruScan st = some lk) : mapHas lk st = true := by
  obtain ⟨pre, e, suf, hst, _⟩ := lruScan_min h
  refine mapHas_of_mem ?_
  rw [hst]
  simp

/-! ### `set` case lemmas -/

/-- When no eviction is required (below capacity, or the key is already
present), `set` inserts the fresh entry straight away. -/
theorem set_insert {V : Type} {config : CacheConfigType} {now : Nat}
    {key : String} {v : V} {st : CacheState V} (hen : config.enabled = true)
    (hcond : ¬(config.maxSize ≤ st.length ∧ mapHas key st = false)) :
    set config now key v st =
      (Except.ok (), mapSet key (freshEntry now config.ttlSeconds v) st) := by
  simp [set, hen, hcond]

/-- When eviction is required and the scan's victim key is truthy (non-empty),
`set` deletes the victim and inserts the fresh entry. -/
theorem set_evict {V : Type} {config : CacheConfigType} {now : Nat}
    {key : String} {v : V} {st : CacheState V} {vk : String}
    (hen : config.enabled = true) (hcap : config.maxSize ≤ st.length)
    (hhas : mapHas key st = false) (hscan : lruScan st = some vk)
    (hvk : vk ≠ "") :
    set config now key v st =
      (Except.ok (),
        mapSet key (freshEntry now config.ttlSeconds v) (mapDelete vk st)) := by
  simp [set, hen, hcap, hhas, hscan, hvk]

/-- A `set` that fails (necessarily with `CacheFullError`) leaves the state
untouched: the eviction delete only happens on the success path. -/
theorem set_error_frame {V : Type} {config : CacheConfigType} {now : Nat}
    {key : String} {v : V} {st : CacheState V} {err : CacheFullError}
    (h : (set config now key v st).1 = Except.error err) :
    (set config now key v st).2 = st := by
  by_cases h1 : config.enabled = false
  · simp [set, h1] at h
  · by_cases h2 : config.maxSize ≤ st.length ∧ mapHas key st = false
    · cases hscan : lruScan st with
      | none => simp [set, h1, h2, hscan]
      | some vk =>
          by_cases h3 : vk = ""
          · simp [set, h1, h2, hscan, h3]
          · simp [set, h1, h2, hscan, h3] at h
    · simp [set, h1, h2] at h

/-- Any successful `set` with the cache enabled leaves the fresh entry stored
under the key, whichever branch was taken. -/
theorem set_ok_lookup {V : Type} {config : CacheConfigType} {now : Nat}
    {key : String} {v : V} {st : CacheState V}
    (hen : config.enabled = true)
    (hok : (set config now key v st).1 = Except.ok ()) :
    mapLookup key (set config now key v st).2 =
      some (freshEntry now config.ttlSeconds v) := by
  by_cases h2 : config.maxSize ≤ st.length ∧ mapHas key st = false
  · cases hscan : lruScan st with
    | none => simp [set, hen, h2, hscan] at hok
    | some vk =>
        by_cases h3 : vk = ""
        · simp [set, hen, h2, hscan, h3] at hok
        · simp [set, hen, h2, hscan, h3, mapLookup_mapSet_self]
  · simp [set_insert hen h2, mapLookup_mapSet_self]

/-- `set` preserves distinctness of the map's keys. -/
theorem nodup_keys_set {V : Type} {config : CacheConfigType} {now : Nat}
    {key : String} {v : V} {st : CacheState V}
    (h : (st.map Prod.fst).Nodup) :
    (((set config now key v st).2).map Prod.fst).Nodup := by
  by_cases h1 : config.enabled = false
  · simpa [set, h1] using h
  · by_cases h2 : config.maxSize ≤ st.length ∧ mapHas key st = false
    · cases hscan : lruScan st with
      | none => simpa [set, h1, h2, hscan] using h
      | some vk =>
          by_cases h3 : vk = ""
          · simpa [set, h1, h2, hscan, h3] using h
          · simp only [set, h1, h2, hscan, h3]
            simp [if_neg h1, if_pos h2, h3]
            exact nodup_keys_mapSet _ (nodup_keys_mapDelete h)
    · simp [set, h1, h2]
      exact nodup_keys_mapSet _ h

/-- After an enabled `set` succeeding by insertion or eviction, the state's
length stays within the capacity bound whenever it started within it. -/
theorem length_set_le {V : Type} (config : CacheConfigType) (now : Nat)
    (key : String) (v : V) (st : CacheState V)
    (h : st.length ≤ config.maxSize) :
    ((set config now key v st).2).length ≤ config.maxSize := by
  by_cases h1 : config.enabled = false
  · simpa [set, h1] using h
  · by_cases h2 : config.maxSize ≤ st.length ∧ mapHas key st = false
    · cases hscan : lruScan st with
      | none => simpa [set, h1, h2, hscan] using h
      | some vk =>
          by_cases h3 : vk = ""
          · simpa [set, h1, h2, hscan, h3] using h
          · have hen : config.enabled = true := by
              cases hc : config.enabled
              · exact absurd hc h1
              · rfl
            rw [set_evict hen h2.1 h2.2 hscan h3]
            have hvkhas : mapHas vk st = true := mapHas_of_lruScan hscan
            have hdel : (mapDelete vk st).length + 1 = st.length :=
              length_mapDelete_of_has hvkhas
            have hkeydel : mapHas key (mapDelete vk st) = false := by
              have : mapLookup key st = none := by
                cases hv : mapLookup key st with
                | none => rfl
                | some e => exact absurd h2.2 (by simp [mapHas, hv])
              simp [mapHas, mapLookup_mapDelete_of_none this]
            rw [mapSet_of_not_has _ hkeydel]
            simp only [List.length_append, List.length_cons, List.length_nil]
            omega
    · have hen : config.enabled = true := by
        cases hc : config.enabled
        · exact absurd hc h1
        · rfl
      rw [set_insert hen h2]
      by_cases hhas : mapHas key st = true
      · rw [length_mapSet_of_has _ hhas]; exact h
      · have hfalse : mapHas key st = false := by simpa using hhas
        rw [mapSet_of_not_has _ hfalse]
        have hlt : st.length < config.maxSize := by
          by_contra hge
          exact h2 ⟨le_of_not_lt hge, hfalse⟩
        simp only [List.length_append, List.length_cons, List.length_nil]
        omega

theorem mapLookup_eq_none_of_has_false {V : Type} {key : String}
    {st : CacheState V} (h : mapHas key st = false) : mapLookup key st = none := by
  cases hv : mapLookup key st with
  | none => rfl
  | some e => simp [mapHas, hv] at h

/-- Filling a cache that has room: a run of `set` calls whose distinct keys are
all absent and fit within the capacity succeeds throughout and appends the
corresponding fresh entries in order. -/
theorem setMany_fill {V : Type} (config : CacheConfigType) (now : Nat) :
    ∀ (kvs : List (String × V)) (st : CacheState V),
      config.enabled = true →
      (kvs.map Prod.fst).Nodup →
      (∀ kv ∈ kvs, mapHas kv.1 st = false) →
      st.length + kvs.length ≤ config.maxSize →
      setMany config now kvs st =
        (true, st ++ kvs.map (fun kv => (kv.1, freshEntry now config.ttlSeconds kv.2))) := by
  intro kvs
  induction kvs with
  | nil => intro st _ _ _ _; simp [setMany]
  | cons kv rest ih =>
      intro st hen hnd habs hlen
      obtain ⟨k, v⟩ := kv
      have hhas : mapHas k st = false := habs (k, v) (List.mem_cons_self _ _)
      have hlen' : st.length + (rest.length + 1) ≤ config.maxSize := by
        simpa using hlen
      have hroom : ¬(config.maxSize ≤ st.length ∧ mapHas k st = false) := by
        rintro ⟨hge, -⟩
        omega
      have hset := @set_insert V config now k v st hen hroom
      simp only [List.map_cons, List.nodup_cons] at hnd
      have habs' : ∀ kv2 ∈ rest,
          mapHas kv2.1 (st ++ [(k, freshEntry now config.ttlSeconds v)]) = false := by
        intro kv2 hkv2
        have h0 : mapLookup kv2.1 st = none :=
          mapLookup_eq_none_of_has_false (habs kv2 (List.mem_cons_of_mem _ hkv2))
        have hkne : k ≠ kv2.1 := by
          intro hkeq
          exact hnd.1 (hkeq ▸ List.mem_map_of_mem Prod.fst hkv2)
        simp [mapHas, mapLookup_append, h0, mapLookup, hkne]
      have hih := ih (st ++ [(k, freshEntry now config.ttlSeconds v)]) hen hnd.2
        habs' (by simp; omega)
      simp only [setMany, hset, mapSet_of_not_has _ hhas, hih, isOk]
      simp [List.append_assoc]

/-! ### Claim theorems -/

/-- C1 (counterexample): the claim says the `CacheFull` branch is unreachable
whenever the map is non-empty at the eviction point.  But on a full map whose
victim key is the empty string, the JavaScript truthiness test `if (lruKey)`
treats the found victim as absent and `set` fails with
`CacheFull(maxSize, currentSize)` even though the map is non-empty. -/
theorem c1_cachefull_reachable :
    stEmptyKey ≠ [] ∧ cfgM1.enabled = true ∧
    cfgM1.maxSize ≤ stEmptyKey.length ∧ mapHas "x" stEmptyKey = false ∧
    (set cfgM1 0 "x" (42 : Nat) stEmptyKey).1 =
      Except.error { maxSize := 1, currentSize := 1 } := by decide

/-- C1 (amended): with `enabled = true`, a `set` of an absent key into a
non-empty at-capacity map always finds an eviction victim, and—provided the
victim chosen by the scan does not have the empty-string key (the JS-truthiness
corner)—never fails with `CacheFull`. -/
theorem c1_eviction_no_cachefull {V : Type} (config : CacheConfigType)
    (now : Nat) (key : String) (v : V) (st : CacheState V)
    (hen : config.enabled = true) (hne : st ≠ [])
    (hcap : config.maxSize ≤ st.length) (hhas : mapHas key st = false)
    (hvict : lruScan st ≠ some "") :
    (∃ vk, lruScan st = some vk) ∧
    (set config now key v st).1 = Except.ok () := by
  obtain ⟨vk, hscan⟩ := lruScan_isSome hne
  have hvk : vk ≠ "" := fun he => hvict (he ▸ hscan)
  exact ⟨⟨vk, hscan⟩, by rw [set_evict hen hcap hhas hscan hvk]⟩

/-- C1 (witness): the amended theorem applied to a concrete full map with key
`"a"`. -/
theorem c1_witness :
    (∃ vk, lruScan stA = some vk) ∧
    (set cfgM1 0 "x" (42 : Nat) stA).1 = Except.ok () :=
  c1_eviction_no_cachefull cfgM1 0 "x" 42 stA rfl (by decide) (by decide)
    (by decide) (by decide)

/-- C2 (counterexample): the claim quantifies over any prior cache state, but
from the full state whose only key is the empty string, `set("x", 42)` fails
with `CacheFull` (JS-truthiness corner), stores nothing, and the immediate
`get("x")` fails with `CacheMiss` instead of returning 42. -/
theorem c2_roundtrip_counterexample :
    cfgM1.enabled = true ∧ 0 < cfgM1.ttlSeconds ∧
    (get "x" 0 (set cfgM1 0 "x" (42 : Nat) stEmptyKey).2).1 =
      Except.error (GetError.cacheMiss "x") := by decide

/-- C2 (amended): with `enabled = true` and `ttlSeconds > 0`, whenever
`set(k, v)` completes successfully (which it always does except in the
empty-string-victim `CacheFull` corner), an immediate `get(k)` at the same
instant succeeds and returns `v`, from any prior state. -/
theorem c2_roundtrip {V : Type} (config : CacheConfigType) (now : Nat)
    (key : String) (v : V) (st : CacheState V)
    (hen : config.enabled = true) (httl : 0 < config.ttlSeconds)
    (hok : (set config now key v st).1 = Except.ok ()) :
    (get key now (set config now key v st).2).1 = Except.ok v := by
  have hl := set_ok_lookup hen hok
  have hexp : ¬ (freshEntry now config.ttlSeconds v).expiresAt < now := by
    simp only [freshEntry]
    omega
  simp [get, hl, hexp, freshEntry]

/-- C2 (witness): round-trip at a concrete key and value. -/
theorem c2_witness :
    (get "k" 0 (set cfgM2 0 "k" (5 : Nat) []).2).1 = Except.ok 5 :=
  c2_roundtrip cfgM2 0 "k" 5 [] rfl (by decide) (by decide)

/-- C4: with `enabled = true`, after a successful `set(k, v)` at time `t0`, a
`get(k)` at `t0 + ttlSeconds*1000 + ε` (ε > 0, times in milliseconds) fails
with `CacheExpired(k, t0, t0 + ttlSeconds*1000)` and removes the entry, and a
subsequent `get(k)` (at any time) fails with `CacheMiss(k)`. -/
theorem c4_ttl_expiry {V : Type} (config : CacheConfigType) (t0 eps t2 : Nat)
    (key : String) (v : V) (st : CacheState V)
    (hen : config.enabled = true)
    (hnd : (st.map Prod.fst).Nodup)
    (hok : (set config t0 key v st).1 = Except.ok ())
    (heps : 0 < eps) :
    (get key (t0 + config.ttlSeconds * 1000 + eps) (set config t0 key v st).2).1 =
      Except.error
        (GetError.cacheExpired key t0 (t0 + config.ttlSeconds * 1000)) ∧
    (get key (t0 + config.ttlSeconds * 1000 + eps) (set config t0 key v st).2).2 =
      mapDelete key (set config t0 key v st).2 ∧
    (get key t2
        (get key (t0 + config.ttlSeconds * 1000 + eps)
          (set config t0 key v st).2).2).1 =
      Except.error (GetError.cacheMiss key) := by
  have hl := set_ok_lookup hen hok
  have hnd1 : (((set config t0 key v st).2).map Prod.fst).Nodup :=
    nodup_keys_set hnd
  refine ⟨by simp [get, hl, freshEntry, heps], by simp [get, hl, freshEntry, heps], ?_⟩
  have hdel : mapLookup key (mapDelete key (set config t0 key v st).2) = none :=
    mapLookup_mapDelete_self hnd1
  simp [get, hl, freshEntry, heps, hdel]

/-- C4 (witness): expiry at a concrete key, starting from the empty state. -/
theorem c4_witness :
    (get "k" (0 + cfgM2.ttlSeconds * 1000 + 1) (set cfgM2 0 "k" (9 : Nat) []).2).1 =
      Except.error
        (GetError.cacheExpired "k" 0 (0 + cfgM2.ttlSeconds * 1000)) ∧
    (get "k" (0 + cfgM2.ttlSeconds * 1000 + 1) (set cfgM2 0 "k" (9 : Nat) []).2).2 =
      mapDelete "k" (set cfgM2 0 "k" (9 : Nat) []).2 ∧
    (get "k" 0
        (get "k" (0 + cfgM2.ttlSeconds * 1000 + 1)
          (set cfgM2 0 "k" (9 : Nat) []).2).2).1 =
      Except.error (GetError.cacheMiss "k") :=
  c4_ttl_expiry cfgM2 0 1 0 "k" 9 [] rfl (by decide) (by decide) (by decide)

/-- C7: when `enabled = false`, `set(k, v)` succeeds with the state entirely
unchanged, and a subsequent `get(k)` on a key absent from that state fails with
`CacheMiss(k)`. -/
theorem c7_disabled_set_noop {V : Type} (config : CacheConfigType)
    (now now2 : Nat) (key : String) (v : V) (st : CacheState V)
    (hdis : config.enabled = false) :
    set config now key v st = (Except.ok (), st) ∧
    (mapLookup key st = none →
      (get key now2 (set config now key v st).2).1 =
        Except.error (GetError.cacheMiss key)) := by
  have hset : set config now key v st = (Except.ok (), st) := by simp [set, hdis]
  refine ⟨hset, fun habs => ?_⟩
  rw [hset]
  simp [get, habs]

/-- C7 (witness): a disabled cache ignores a concrete `set` and misses. -/
theorem c7_witness :
    set ⟨false, 100, 1⟩ 0 "k" (5 : Nat) [] = (Except.ok (), ([] : CacheState Nat)) ∧
    (get "k" 0 (set ⟨false, 100, 1⟩ 0 "k" (5 : Nat) ([] : CacheState Nat)).2).1 =
      Except.error (GetError.cacheMiss "k") :=
  ⟨(c7_disabled_set_noop ⟨false, 100, 1⟩ 0 0 "k" 5 [] rfl).1,
    (c7_disabled_set_noop ⟨false, 100, 1⟩ 0 0 "k" 5 [] rfl).2 rfl⟩

/-- C8: a successful `get` on a live entry returns the stored value and bumps
that entry's `accessCount` by exactly one (the embedding stores the payload
untyped-as-`V` and returns it without any runtime validation, as the source
casts `unknown` to `T`); and `set` on an already-present key succeeds without
eviction, leaves `size()` unchanged, and stores a fresh entry whose
`accessCount` is reset to 0. -/
theorem c8_hit_bump_and_overwrite_reset {V : Type} :
    (∀ (key : String) (now : Nat) (st : CacheState V) (e : CacheEntry V),
        mapLookup key st = some e → ¬ e.expiresAt < now →
        get key now st = (Except.ok e.value, bumpAccess key st) ∧
        mapLookup key (bumpAccess key st) =
          some { e with accessCount := e.accessCount + 1 }) ∧
    (∀ (config : CacheConfigType) (now : Nat) (key : String) (v : V)
        (st : CacheState V) (e0 : CacheEntry V),
        config.enabled = true → mapLookup key st = some e0 →
        (set config now key v st).1 = Except.ok () ∧
        size (set config now key v st).2 = size st ∧
        mapLookup key (set config now key v st).2 =
          some (freshEntry now config.ttlSeconds v) ∧
        (freshEntry now config.ttlSeconds v).accessCount = 0) := by
  constructor
  · intro key now st e hl hexp
    exact ⟨by simp [get, hl, hexp], mapLookup_bumpAccess_self hl⟩
  · intro config now key v st e0 hen hl
    have hhas : mapHas key st = true := by simp [mapHas, hl]
    have hcond : ¬(config.maxSize ≤ st.length ∧ mapHas key st = false) := by
      rintro ⟨-, hf⟩
      simp [hhas] at hf
    rw [set_insert hen hcond]
    exact ⟨rfl, by simp [size, length_mapSet_of_has _ hhas],
      mapLookup_mapSet_self key (freshEntry now config.ttlSeconds v) st, rfl⟩

/-- C8 (witness): hit-bump and overwrite-reset on a concrete one-entry state. -/
theorem c8_witness :
    get "a" 0 stB = (Except.ok 7, bumpAccess "a" stB) ∧
    mapLookup "a" (bumpAccess "a" stB) = some ⟨7, 0, 100000, 4⟩ ∧
    (set cfgM2 0 "a" (11 : Nat) stB).1 = Except.ok () ∧
    size (set cfgM2 0 "a" (11 : Nat) stB).2 = size stB ∧
    mapLookup "a" (set cfgM2 0 "a" (11 : Nat) stB).2 =
      some (freshEntry 0 cfgM2.ttlSeconds 11) := by
  have h1 := (c8_hit_bump_and_overwrite_reset (V := Nat)).1 "a" 0 stB
    ⟨7, 0, 100000, 3⟩ (by decide) (by decide)
  have h2 := (c8_hit_bump_and_overwrite_reset (V := Nat)).2 cfgM2 0 "a" 11 stB
    ⟨7, 0, 100000, 3⟩ rfl (by decide)
  exact ⟨h1.1, h1.2, h2.1, h2.2.1, h2.2.2.1⟩

/-- C9: `get` of an absent key fails with `CacheMiss(key)` and leaves the state
untouched; `clear` unconditionally replaces the state with the empty map, so
`size` is 0 afterwards and every key misses. -/
theorem c9_miss_and_clear {V : Type} :
    (∀ (key : String) (now : Nat) (st : CacheState V),
        mapLookup key st = none →
        get key now st = (Except.error (GetError.cacheMiss key), st)) ∧
    (∀ st : CacheState V, clear st = [] ∧ size (clear st) = 0) ∧
    (∀ (key : String) (now : Nat) (st : CacheState V),
        (get key now (clear st)).1 = Except.error (GetError.cacheMiss key)) := by
  refine ⟨fun key now st h => by simp [get, h], fun st => ⟨rfl, rfl⟩,
    fun key now st => by simp [get, clear, mapLookup]⟩

/-- C9 (witness): concrete miss and clear. -/
theorem c9_witness :
    get "q" 0 ([] : CacheState Nat) = (Except.error (GetError.cacheMiss "q"), []) ∧
    clear stA = [] ∧ size (clear stA) = 0 ∧
    (get "a" 0 (clear stA)).1 = Except.error (GetError.cacheMiss "a") := by
  have h := c9_miss_and_clear (V := Nat)
  exact ⟨h.1 "q" 0 [] rfl, (h.2.1 stA).1, (h.2.1 stA).2, h.2.2 "a" 0 stA⟩

/-- C10: a `get` that fails with `CacheMiss` performs no state mutation, and a
`set` that fails (necessarily with `CacheFull`) performs no state mutation:
nothing is evicted and nothing is inserted. -/
theorem c10_failed_ops_frame {V : Type} :
    (∀ (key : String) (now : Nat) (st : CacheState V),
        (get key now st).1 = Except.error (GetError.cacheMiss key) →
        (get key now st).2 = st) ∧
    (∀ (config : CacheConfigType) (now : Nat) (key : String) (v : V)
        (st : CacheState V) (err : CacheFullError),
        (set config now key v st).1 = Except.error err →
        (set config now key v st).2 = st) := by
  constructor
  · intro key now st h
    cases hl : mapLookup key st with
    | none => simp [get, hl]
    | some e =>
        by_cases hexp : e.expiresAt < now
        · simp [get, hl, hexp] at h
        · simp [get, hl, hexp] at h
  · intro config now key v st err h
    exact set_error_frame h

/-- C10 (witness): a concrete missing `get` and a concrete `CacheFull`-failing
`set` both leave the state unchanged. -/
theorem c10_witness :
    (get "q" 0 ([] : CacheState Nat)).2 = [] ∧
    (set ⟨true, 100, 0⟩ 0 "z" (1 : Nat) []).2 = [] := by
  have h := c10_failed_ops_frame (V := Nat)
  exact ⟨h.1 "q" 0 [] (by decide),
    h.2 ⟨true, 100, 0⟩ 0 "z" 1 [] ⟨0, 0⟩ (by decide)⟩

/-- C3 (counterexample): with `maxSize = 1`, inserting the single (distinct)
key `""` succeeds and `size() = 1`, but a second distinct insert `"x"` evicts
nothing at all—the state is unchanged and the `set` fails—contradicting the
claim that the `(N+1)`th distinct insert evicts exactly one entry. -/
theorem c3_eviction_counterexample :
    cfgM1.enabled = true ∧ cfgM1.maxSize = 1 ∧
    (setMany cfgM1 0 [("", (7 : Nat))] []).1 = true ∧
    size (setMany cfgM1 0 [("", (7 : Nat))] []).2 = 1 ∧
    mapHas "x" (setMany cfgM1 0 [("", (7 : Nat))] []).2 = false ∧
    (set cfgM1 0 "x" (42 : Nat) (setMany cfgM1 0 [("", (7 : Nat))] []).2).2 =
      (setMany cfgM1 0 [("", (7 : Nat))] []).2 ∧
    isOk (set cfgM1 0 "x" (42 : Nat) (setMany cfgM1 0 [("", (7 : Nat))] []).2).1 =
      false := by decide

/-- C3 (amended): a `set` never grows the map beyond `maxSize`; inserting
`N = maxSize` distinct keys into the enabled empty cache succeeds with
`size() = N`; and an `(N+1)`th distinct insert—provided the scan's victim key
is not the empty string (the JS-truthiness corner)—succeeds, evicts exactly
the scan's victim (an entry of minimal `accessCount`), and leaves
`size() = N`. -/
theorem c3_capacity_invariant {V : Type} :
    (∀ (config : CacheConfigType) (now : Nat) (key : String) (v : V)
        (st : CacheState V),
        st.length ≤ config.maxSize →
        ((set config now key v st).2).length ≤ config.maxSize) ∧
    (∀ (config : CacheConfigType) (now now2 : Nat) (kvs : List (String × V)),
        config.enabled = true → (kvs.map Prod.fst).Nodup →
        kvs.length = config.maxSize →
        (setMany config now kvs []).1 = true ∧
        size (setMany config now kvs []).2 = config.maxSize ∧
        (∀ (knew : String) (vnew : V) (vk : String),
            mapHas knew (setMany config now kvs []).2 = false →
            lruScan (setMany config now kvs []).2 = some vk → vk ≠ "" →
            (set config now2 knew vnew (setMany config now kvs []).2).1 =
              Except.ok () ∧
            size (set config now2 knew vnew (setMany config now kvs []).2).2 =
              config.maxSize ∧
            (set config now2 knew vnew (setMany config now kvs []).2).2 =
              mapSet knew (freshEntry now2 config.ttlSeconds vnew)
                (mapDelete vk (setMany config now kvs []).2) ∧
            (∃ pre e suf,
              (setMany config now kvs []).2 = pre ++ (vk, e) :: suf ∧
              ∀ p ∈ (setMany config now kvs []).2,
                e.accessCount ≤ p.2.accessCount))) := by
  constructor
  · intro config now key v st h
    exact length_set_le config now key v st h
  · intro config now now2 kvs hen hnd hlen
    have hfill := setMany_fill config now kvs [] hen hnd (fun kv _ => rfl)
      (by simp [hlen])
    have hstlen : (setMany config now kvs []).2.length = config.maxSize := by
      rw [hfill]
      simp [hlen]
    refine ⟨by rw [hfill], by simp [size, hstlen], ?_⟩
    intro knew vnew vk hhas hscan hvk
    have hcap : config.maxSize ≤ (setMany config now kvs []).2.length :=
      le_of_eq hstlen.symm
    have hevict := @set_evict V config now2 knew vnew
      (setMany config now kvs []).2 vk hen hcap hhas hscan hvk
    have hvkhas := mapHas_of_lruScan hscan
    have hdel := length_mapDelete_of_has hvkhas
    have hkeydel : mapHas knew (mapDelete vk (setMany config now kvs []).2) = false := by
      simp [mapHas,
        mapLookup_mapDelete_of_none (mapLookup_eq_none_of_has_false hhas)]
    refine ⟨by rw [hevict], ?_, by rw [hevict], lruScan_min hscan⟩
    rw [hevict]
    simp only [size]
    rw [mapSet_of_not_has _ hkeydel]
    simp only [List.length_append, List.length_cons, List.length_nil]
    omega

/-- C3 (witness): the amended theorem at `maxSize = 2` with keys `"a"`, `"b"`
and the third distinct key `"c"` evicting the victim `"a"`. -/
theorem c3_witness :
    ((set cfgM2 0 "z" (5 : Nat) []).2).length ≤ cfgM2.maxSize ∧
    (setMany cfgM2 0 [("a", (1 : Nat)), ("b", 2)] []).1 = true ∧
    (set cfgM2 0 "c" (3 : Nat) (setMany cfgM2 0 [("a", (1 : Nat)), ("b", 2)] []).2).1 =
      Except.ok () := by
  have h := c3_capacity_invariant (V := Nat)
  have h1 := h.1 cfgM2 0 "z" 5 [] (by decide)
  have h2 := h.2 cfgM2 0 0 [("a", 1), ("b", 2)] rfl (by decide) rfl
  have h3 := h2.2.2 "c" 3 "a" (by decide) (by decide) (by decide)
  exact ⟨h1, h2.1, h3.1⟩

/-- C5 (counterexample): the claim says an evicting `set` deletes the first
entry in iteration order with minimal `accessCount`; but when that entry's key
is the empty string the JS-truthiness test skips the deletion and `set` fails
with `CacheFull`, deleting nothing. -/
theorem c5_first_minimal_counterexample :
    cfgM2.enabled = true ∧ cfgM2.maxSize ≤ stEmptyFirst.length ∧
    mapHas "z" stEmptyFirst = false ∧
    lruScan stEmptyFirst = some "" ∧
    (set cfgM2 0 "z" (9 : Nat) stEmptyFirst).2 = stEmptyFirst ∧
    isOk (set cfgM2 0 "z" (9 : Nat) stEmptyFirst).1 = false := by decide

/-- C5 (amended): when `set` must evict and the scan's victim key is non-empty
(JS-truthiness corner excluded), it deletes exactly the first entry in map
iteration order whose `accessCount` is minimal (strictly smaller than every
earlier entry's, no larger than any later entry's); and the spec's concrete
scenario holds: with `maxSize = 2, ttlSeconds = 100`, after `set("a",1)`,
`set("b",2)`, `get("a")`, the call `set("c",3)` evicts `"b"`, so `get("b")`
misses while `get("a")` and `get("c")` succeed. -/
theorem c5_evicts_first_minimal :
    (∀ (V : Type) (config : CacheConfigType) (now : Nat) (key : String) (v : V)
        (st : CacheState V) (vk : String),
        config.enabled = true → config.maxSize ≤ st.length →
        mapHas key st = false → lruScan st = some vk → vk ≠ "" →
        set config now key v st =
          (Except.ok (),
            mapSet key (freshEntry now config.ttlSeconds v) (mapDelete vk st)) ∧
        (∃ (pre : CacheState V) (e : CacheEntry V) (suf : CacheState V),
          st = pre ++ (vk, e) :: suf ∧
          (∀ p ∈ pre, e.accessCount < p.2.accessCount) ∧
          (∀ p ∈ suf, e.accessCount ≤ p.2.accessCount))) ∧
    (size scnB = 2 ∧
      (get "a" 0 scnB).1 = Except.ok 1 ∧
      (mapLookup "a" scnAfterGet).map CacheEntry.accessCount = some 1 ∧
      (mapLookup "b" scnAfterGet).map CacheEntry.accessCount = some 0 ∧
      scnFinal.1 = Except.ok () ∧
      mapHas "b" scnFinal.2 = false ∧
      (get "b" 0 scnFinal.2).1 = Except.error (GetError.cacheMiss "b") ∧
      (get "a" 0 scnFinal.2).1 = Except.ok 1 ∧
      (get "c" 0 scnFinal.2).1 = Except.ok 3) := by
  constructor
  · intro V config now key v st vk hen hcap hhas hscan hvk
    exact ⟨set_evict hen hcap hhas hscan hvk, lruScan_spec hscan⟩
  · decide

/-- C5 (witness): the general part applied to a concrete full map where `"b"`
holds the minimal `accessCount`. -/
theorem c5_witness :
    set cfgM2 0 "c" (3 : Nat) stTwoCounts =
      (Except.ok (),
        mapSet "c" (freshEntry 0 cfgM2.ttlSeconds 3) (mapDelete "b" stTwoCounts)) ∧
    (∃ pre e suf, stTwoCounts = pre ++ ("b", e) :: suf ∧
      (∀ p ∈ pre, e.accessCount < p.2.accessCount) ∧
      (∀ p ∈ suf, e.accessCount ≤ p.2.accessCount)) :=
  c5_evicts_first_minimal.1 Nat cfgM2 0 "c" 3 stTwoCounts "b" rfl (by decide)
    (by decide) (by decide) (by decide)

end WeatherCache
